import Mathlib

/-!
Verification of the MGit overlay core: the hash engine (`computeMGitHash`),
the content-addressed object store (`StoreCommit` / `GetCommit` /
`findObjectByPrefix`), references and HEAD, the hash-mapping table
(`StoreMapping`), the reconstruction algorithm (`reconstructMGitObjects`)
and the verifier (`HandleMGitVerify`).

Modelling conventions.  Go strings and byte slices are modelled as
`List Nat` (one element per byte / code point; ASCII data is byte-exact).
A `plumbing.Hash` (20 raw bytes) is a `List Nat` of length 20 produced by
`hexDecode20`, which models go-git's `plumbing.NewHash` (partial hex decode,
truncate/zero-pad to 20).  The SHA-1 compression applied by the hash engine
is modelled as the identity on the written byte stream: the modelled digest
is exactly the sequence of bytes the Go code feeds to `sha1.New()`.  This
keeps every statement about *which* data enters the digest, and every
sensitivity statement, faithful modulo SHA-1 collision resistance; the Go
code's final 20-byte truncation and hex rendering are injective-ignored.
The filesystem under `.mgit/` is explicit state: the `objects/` tree is an
association list keyed by (shard-directory name, file name), `refs/` an
association list keyed by ref name, and `HEAD` an optional file content.
-/

/-- A Go string / byte sequence, one `Nat` per byte (code point). -/
abbrev Str := List Nat

/-- Bytes of a Lean string literal (code points; byte-exact on ASCII). -/
def bytes (s : String) : Str := s.data.map Char.toNat

/-- Value of one hex digit byte, accepting both cases (Go `encoding/hex`). -/
def hexVal (b : Nat) : Option Nat :=
  if 48 ≤ b ∧ b ≤ 57 then some (b - 48)
  else if 97 ≤ b ∧ b ≤ 102 then some (b - 87)
  else if 65 ≤ b ∧ b ≤ 70 then some (b - 55)
  else none

/-- Go `hex.DecodeString`: decode byte pairs from the front, stopping at the
first malformed pair or lone trailing digit, returning the bytes decoded so
far (Go returns the partial result alongside the error, and
`plumbing.NewHash` discards the error). -/
def hexPairs : Str → List Nat
  | b1 :: b2 :: rest =>
    match hexVal b1, hexVal b2 with
    | some h, some l => (16 * h + l) :: hexPairs rest
    | _, _ => []
  | _ => []

/-- go-git `plumbing.NewHash`: hex-decode (partially, on malformed input)
and `copy` into a zeroed 20-byte array. -/
def hexDecode20 (s : Str) : List Nat :=
  let d := (hexPairs s).take 20
  d ++ List.replicate (20 - d.length) 0

/-- Lowercase hex digit byte for a value below 16. -/
def hexChar (n : Nat) : Nat := if n < 10 then 48 + n else 87 + n

/-- go-git `Hash.String()`: lowercase hex rendering of a 20-byte hash. -/
def hashHex (h : List Nat) : Str := h.flatMap (fun b => [hexChar (b / 16), hexChar (b % 16)])

/-- `MGitSignature` (mcommit.go): name, email, nostr pubkey, timestamp.
Only the Unix seconds of `When` enter the hash engine, so the timestamp is
modelled by its Unix value. -/
structure MGitSignature where
  name : Str
  email : Str
  pubkey : Str
  whenUnix : Int
deriving DecidableEq

/-- `MGitObjectType` (mcommit.go). -/
inductive MGitObjectType
  | commit
  | tree
  | blob
deriving DecidableEq

/-- `MCommitStruct` (mcommit.go): one overlay commit record, as serialized
into `.mgit/objects/<2-hex>/<rest>`.  `metadata` is an association list
standing for the Go string map. -/
structure MCommitStruct where
  type : MGitObjectType
  mgitHash : Str
  gitHash : Str
  treeHash : Str
  parentHashes : List Str
  author : MGitSignature
  committer : MGitSignature
  message : Str
  metadata : List (Str × Str)
deriving DecidableEq

/-- go-git `object.Signature` as consumed by the core (name, email, Unix
timestamp). -/
structure GitSignature where
  name : Str
  email : Str
  whenUnix : Int
deriving DecidableEq

/-- The slice of go-git's `object.Commit` the core consumes: tree hash and
parent hashes as raw 20-byte values, author/committer, message. -/
structure GitCommit where
  treeHash : List Nat
  parentHashes : List (List Nat)
  author : GitSignature
  committer : GitSignature
  message : Str
deriving DecidableEq

/-- Underlying repository HEAD: symbolic (on a branch) or detached. -/
inductive GitHead
  | branch (name : Str)
  | detached (h : List Nat)
deriving DecidableEq

/-- The underlying repository as consumed through go-git: commit lookup by
20-byte hash, branch enumeration (name, tip hash), HEAD. -/
structure GitRepo where
  commits : List (List Nat × GitCommit)
  branches : List (Str × List Nat)
  head : GitHead
deriving DecidableEq

/-- `repo.CommitObject`: first commit stored under the given 20-byte hash. -/
def lookupGitCommit (repo : GitRepo) (h : List Nat) : Option GitCommit :=
  (repo.commits.find? (fun e => e.1 == h)).map (fun e => e.2)

/-- `NostrCommitMapping`: one mapping-table record
`{git_hash, mgit_hash, pubkey}`. -/
structure NostrCommitMapping where
  gitHash : Str
  mgitHash : Str
  pubkey : Str
deriving DecidableEq

/-- The `.mgit/objects` tree: entries keyed by (shard directory, file name)
with the decoded record as content. -/
abbrev ObjStore := List ((Str × Str) × MCommitStruct)

/-- The `.mgit/refs` tree: file per ref name, content the raw hash. -/
abbrev Refs := List (Str × Str)

/-- The `.mgit` directory state: objects, refs, and the HEAD file
(`none` = file absent). -/
structure MGitState where
  objects : ObjStore
  refs : Refs
  head : Option Str
deriving DecidableEq

/-- The author line `fmt.Sprintf("%s <%s> %d %s", name, email, when, pubkey)`
of `computeMGitHash`. -/
def authorLine (c : GitCommit) (pubkey : Str) : Str :=
  c.author.name ++ bytes (" <") ++ c.author.email ++ bytes ("> ")
    ++ bytes (toString c.author.whenUnix) ++ bytes (" ") ++ pubkey

/-- The committer line of `computeMGitHash`:
`fmt.Sprintf("%s <%s> %d", name, email, when, pubkey)` — the format string
has three verbs but four operands, so Go appends the extra-operand artifact
`%!(EXTRA string=<pubkey>)` to the formatted result. -/
def committerLine (c : GitCommit) (pubkey : Str) : Str :=
  c.committer.name ++ bytes (" <") ++ c.committer.email ++ bytes ("> ")
    ++ bytes (toString c.committer.whenUnix)
    ++ bytes ("%!(EXTRA string=") ++ pubkey ++ bytes (")")

/-- `computeMGitHash` (mcommit.go): the byte stream written to the SHA-1
hasher, statement by statement: tree hash bytes; each parent string decoded
through `plumbing.NewHash` in a loop; the author line; the committer line;
then — under the source comment "Include the commit message" — the
*committer line again*.  The digest is modelled as this stream. -/
def computeMGitHash (commit : GitCommit) (parentMGitHashes : List Str) (pubkey : Str) : Str :=
  let h0 : Str := []
  let h1 := h0 ++ commit.treeHash
  let h2 := parentMGitHashes.foldl (fun h p => h ++ hexDecode20 p) h1
  let h3 := h2 ++ authorLine commit pubkey
  let h4 := h3 ++ committerLine commit pubkey
  let h5 := h4 ++ committerLine commit pubkey
  h5

/-- Replace the first entry with the given key, else append (models
overwriting / creating the object file at that path). -/
def setEntry (store : ObjStore) (k : Str × Str) (v : MCommitStruct) : ObjStore :=
  match store with
  | [] => [(k, v)]
  | e :: rest => if e.1 = k then (k, v) :: rest else e :: setEntry rest k v

/-- First entry with the given key (models reading the object file). -/
def lookupEntry (store : ObjStore) (k : Str × Str) : Option MCommitStruct :=
  (store.find? (fun e => e.1 == k)).map (fun e => e.2)

/-- Outcome of `StoreCommit`: success, the explicit empty-hash error, or the
runtime slice panic raised by `commit.MGitHash[:2]` on a 1-byte hash. -/
inductive StoreResult
  | ok (s : ObjStore)
  | errEmptyHash
  | panicSlice
deriving DecidableEq

/-- `MGitStorage.StoreCommit`: reject an empty hash, set `Type` to commit,
shard by the first two characters (`MGitHash[:2]` — a slice that panics when
the hash has exactly one byte), write the record. -/
def StoreCommit (store : ObjStore) (commit : MCommitStruct) : StoreResult :=
  if commit.mgitHash = [] then .errEmptyHash
  else if commit.mgitHash.length < 2 then .panicSlice
  else .ok (setEntry store (commit.mgitHash.take 2, commit.mgitHash.drop 2)
    { commit with type := .commit })

/-- `MGitStorage.findObjectByPrefix`: for a 1–2 byte prefix list the shard
directory of that name; for longer prefixes list the shard directory named
by the first two bytes and keep files extending the remainder.  Each match
is returned as directory name ++ file name. -/
def findObjectByPrefix (store : ObjStore) (p : Str) : List Str :=
  if p.length ≤ 2 then
    (store.filter (fun e => e.1.1 == p)).map (fun e => p ++ e.1.2)
  else
    (store.filter (fun e => e.1.1 == p.take 2 && (p.drop 2).isPrefixOf e.1.2)).map
      (fun e => p.take 2 ++ e.1.2)

/-- Failures of the object-store read path. -/
inductive GetErr
  | tooShort
  | notFound
  | ambiguous
deriving DecidableEq

/-- The read tail of `MGitStorage.GetCommit`: stat/read/unmarshal the object
file at the sharded path `objects/<hash[:2]>/<hash[2:]>`. -/
def readObject (store : ObjStore) (full : Str) : Except GetErr MCommitStruct :=
  match lookupEntry store (full.take 2, full.drop 2) with
  | none => .error .notFound
  | some c => .ok c

/-- `MGitStorage.GetCommit`: reject prefixes under 4 bytes; resolve a
sub-40-byte prefix through `findObjectByPrefix` (no match → not found, two
or more → ambiguous); then read the object file at the sharded path. -/
def GetCommit (store : ObjStore) (mgitHash : Str) : Except GetErr MCommitStruct :=
  if mgitHash.length < 4 then .error .tooShort
  else if mgitHash.length < 40 then
    match findObjectByPrefix store mgitHash with
    | [] => .error .notFound
    | [m] => readObject store m
    | _ :: _ :: _ => .error .ambiguous
  else readObject store mgitHash

/-- Ref-name normalization shared by `UpdateRef` / `GetRef`: prepend
`refs/heads/` when the name does not start with `refs/`. -/
def normRef (name : Str) : Str :=
  if (bytes ("refs/")).isPrefixOf name then name else bytes ("refs/heads/") ++ name

/-- Replace-or-append a ref file. -/
def setRef (refs : Refs) (k v : Str) : Refs :=
  match refs with
  | [] => [(k, v)]
  | e :: rest => if e.1 = k then (k, v) :: rest else e :: setRef rest k v

/-- First ref file with the given name. -/
def lookupRef (refs : Refs) (k : Str) : Option Str :=
  (refs.find? (fun e => e.1 == k)).map (fun e => e.2)

/-- `MGitStorage.UpdateRef`: normalize the name and write the raw hash. -/
def UpdateRef (refs : Refs) (name h : Str) : Refs := setRef refs (normRef name) h

/-- `MGitStorage.GetRef`: normalize the name and read the file content. -/
def GetRef (refs : Refs) (name : Str) : Except GetErr Str :=
  match lookupRef refs (normRef name) with
  | none => .error .notFound
  | some h => .ok h

/-- `MGitStorage.GetHead`: read HEAD; strip a `ref: ` prefix (symbolic),
else return the raw content (detached). -/
def GetHead (s : MGitState) : Except GetErr Str :=
  match s.head with
  | none => .error .notFound
  | some content =>
    if (bytes ("ref: ")).isPrefixOf content then .ok (content.drop 5) else .ok content

/-- `MGitStorage.GetHeadCommit`: resolve symbolic HEAD through its ref, then
load the record. -/
def GetHeadCommit (s : MGitState) : Except GetErr MCommitStruct :=
  match GetHead s with
  | .error e => .error e
  | .ok head =>
    if (bytes ("refs/")).isPrefixOf head then
      match GetRef s.refs head with
      | .error e => .error e
      | .ok h => GetCommit s.objects h
    else GetCommit s.objects head

/-- `MGitStorage.StoreMapping` / `StoreCommitNostrMapping` (identical update
logic): replace the first record sharing either hash, else append. -/
def StoreMapping (mappings : List NostrCommitMapping) (gitHash mgitHash pubkey : Str) :
    List NostrCommitMapping :=
  match mappings with
  | [] => [⟨gitHash, mgitHash, pubkey⟩]
  | m :: rest =>
    if m.gitHash = gitHash ∨ m.mgitHash = mgitHash then ⟨gitHash, mgitHash, pubkey⟩ :: rest
    else m :: StoreMapping rest gitHash mgitHash pubkey

/-- Fatal outcomes of `reconstructMGitObjects`: the slice panics raised by
`MGitHash[:2]` (in `StoreCommit`) and by the `MGitHash[:7]` diagnostic
prints, and the detached-HEAD-without-mapping error. -/
inductive RecErr
  | panicSlice
  | panicShortHash
  | noDetachedMapping
deriving DecidableEq

/-- `storage.Initialize` as used by reconstruction: directory creation is a
no-op on the modelled state; a default HEAD (`ref: refs/heads/master`) is
created only when the HEAD file is absent. -/
def initLayout (s : MGitState) : MGitState :=
  match s.head with
  | none => { s with head := some (bytes ("ref: refs/heads/master")) }
  | some h => { s with head := some h }

/-- The inner parent loop of `reconstructMGitObjects`: the first mapping
whose `git_hash` equals the parent's hex string (`break` after the first
match). -/
def findParentMGit (mappings : List NostrCommitMapping) (parentHex : Str) : Option Str :=
  (mappings.find? (fun m => m.gitHash == parentHex)).map (fun m => m.mgitHash)

/-- The parent-derivation loop of `reconstructMGitObjects`: for each parent
git hash, in order, append the first mapped `mgit_hash` — a parent with no
mapping entry appends nothing. -/
def reconstructParents (mappings : List NostrCommitMapping) (parentGitHashes : List (List Nat)) :
    List Str :=
  parentGitHashes.foldl
    (fun acc pg =>
      match findParentMGit mappings (hashHex pg) with
      | some h => acc ++ [h]
      | none => acc)
    []

/-- The `MCommitStruct` rebuilt by `reconstructMGitObjects` for one mapping
record: the underlying commit's tree hash, author/committer (stamped with
the mapping's pubkey), message, derived parent overlay hashes, and a
schema-version metadata tag. -/
def reconRecord (mappings : List NostrCommitMapping) (m : NostrCommitMapping)
    (gc : GitCommit) : MCommitStruct :=
  { type := .commit
    mgitHash := m.mgitHash
    gitHash := m.gitHash
    treeHash := hashHex gc.treeHash
    parentHashes := reconstructParents mappings gc.parentHashes
    author := ⟨gc.author.name, gc.author.email, m.pubkey, gc.author.whenUnix⟩
    committer := ⟨gc.committer.name, gc.committer.email, m.pubkey, gc.committer.whenUnix⟩
    message := gc.message
    metadata := [(bytes ("version"), bytes ("1.0"))] }

/-- One iteration of the mapping loop of `reconstructMGitObjects`: skip when
the overlay object already loads; skip (with a warning) when the underlying
commit is absent; otherwise rebuild the record and store it, continuing on
the store's explicit error and dying on its panic, and panicking on the
`MGitHash[:7]` success print when the hash is shorter than 7 bytes. -/
def processMapping (repo : GitRepo) (mappings : List NostrCommitMapping) (store : ObjStore)
    (m : NostrCommitMapping) : Except RecErr ObjStore :=
  match GetCommit store m.mgitHash with
  | .ok _ => .ok store
  | .error _ =>
    match lookupGitCommit repo (hexDecode20 m.gitHash) with
    | none => .ok store
    | some gc =>
      match StoreCommit store (reconRecord mappings m gc) with
      | .ok s' => if m.mgitHash.length < 7 then .error .panicShortHash else .ok s'
      | .errEmptyHash => .ok store
      | .panicSlice => .error .panicSlice

/-- The mapping loop of `reconstructMGitObjects`, in table order. -/
def processMappings (repo : GitRepo) (mappings : List NostrCommitMapping) (store : ObjStore) :
    List NostrCommitMapping → Except RecErr ObjStore
  | [] => .ok store
  | m :: rest =>
    match processMapping repo mappings store m with
    | .ok s' => processMappings repo mappings s' rest
    | .error e => .error e

/-- The branch loop of `reconstructMGitObjects`: for every branch, the first
mapping whose `git_hash` equals the tip updates `refs/heads/<name>`; on
success Go prints `mgitHash[:7]`, a slice panic for mapped hashes shorter
than 7 bytes; an unmapped branch is only warned about. -/
def updateBranchRefs (mappings : List NostrCommitMapping) (branches : List (Str × List Nat))
    (refs : Refs) : Except RecErr Refs :=
  match branches with
  | [] => .ok refs
  | (name, tip) :: rest =>
    match mappings.find? (fun m => m.gitHash == hashHex tip) with
    | some m =>
      if m.mgitHash.length < 7 then .error .panicShortHash
      else updateBranchRefs mappings rest (UpdateRef refs (bytes ("refs/heads/") ++ name) m.mgitHash)
    | none => updateBranchRefs mappings rest refs

/-- The HEAD phase of `reconstructMGitObjects`: a symbolic underlying HEAD
is written as `ref: refs/heads/<branch>`; a detached HEAD is resolved
through the mapping table (first match; an empty `mgit_hash` counts as no
match) and written as the raw overlay hash, failing fatally when absent, and
panicking on the `mgitHash[:7]` print for mapped hashes under 7 bytes. -/
def writeReconHead (repo : GitRepo) (mappings : List NostrCommitMapping) (s : MGitState) :
    Except RecErr MGitState :=
  match repo.head with
  | .branch name => .ok { s with head := some (bytes ("ref: refs/heads/") ++ name) }
  | .detached g =>
    match mappings.find? (fun m => m.gitHash == hashHex g) with
    | none => .error .noDetachedMapping
    | some m =>
      if m.mgitHash.length = 0 then .error .noDetachedMapping
      else if m.mgitHash.length < 7 then .error .panicShortHash
      else .ok { s with head := some m.mgitHash }

/-- `reconstructMGitObjects` (clone path): ensure the layout, replay the
mapping table against the underlying repository, update branch refs, write
HEAD.  The repository and the parsed mapping table are parameters (opening
the repository and reading/parsing `.mgit/mappings/hash_mappings.json` are
the fatal preliminary steps). -/
def reconstructMGitObjects (s0 : MGitState) (repo : GitRepo)
    (mappings : List NostrCommitMapping) : Except RecErr MGitState :=
  let s := initLayout s0
  match processMappings repo mappings s.objects mappings with
  | .error e => .error e
  | .ok objects' =>
    match updateBranchRefs mappings repo.branches s.refs with
    | .error e => .error e
    | .ok refs' => writeReconHead repo mappings { s with objects := objects', refs := refs' }

/-- The per-commit check of `HandleMGitVerify`: the underlying commit loads
by the recorded `git_hash` and the recomputed overlay hash equals the hash
the record was reached under. -/
def checkCommit (repo : GitRepo) (key : Str) (c : MCommitStruct) : Bool :=
  match lookupGitCommit repo (hexDecode20 c.gitHash) with
  | none => false
  | some gc => computeMGitHash gc c.parentHashes c.author.pubkey == key

/-- The verification loop of `HandleMGitVerify`: a `valid` flag over the
collected graph, cleared on a missing underlying commit or a hash mismatch,
never aborting early. -/
def verifyChain (repo : GitRepo) (graph : List (Str × MCommitStruct)) : Bool :=
  graph.foldl
    (fun valid p =>
      match lookupGitCommit repo (hexDecode20 p.2.gitHash) with
      | none => false
      | some gc =>
        if computeMGitHash gc p.2.parentHashes p.2.author.pubkey ≠ p.1 then false else valid)
    true

/-- The graph-building loop of `HandleMGitVerify`: breadth-first from the
queue, visited-set keyed by the traversal string; a record that fails to
load is *skipped with a printed error* and in particular never marked
invalid; parents of each loaded record are enqueued.  `fuel` bounds the
number of loop iterations (the Go loop always terminates; every claim is
evaluated at sufficient fuel). -/
def buildGraph (store : ObjStore) :
    Nat → List Str → List Str → List (Str × MCommitStruct) → List (Str × MCommitStruct)
  | 0, _, _, acc => acc
  | _ + 1, [], _, acc => acc
  | fuel + 1, current :: queue, visited, acc =>
    if current ∈ visited then buildGraph store fuel queue visited acc
    else
      match GetCommit store current with
      | .error _ => buildGraph store fuel queue visited acc
      | .ok c =>
        buildGraph store fuel (queue ++ c.parentHashes.filter (fun p => ¬ p ∈ visited))
          (current :: visited) (acc ++ [(current, c)])

/-- `HandleMGitVerify`: load the HEAD record, build the reachable graph from
it, and fold the per-commit verification into the single `valid` flag. -/
def HandleMGitVerify (s : MGitState) (repo : GitRepo) (fuel : Nat) : Except GetErr Bool :=
  match GetHeadCommit s with
  | .error e => .error e
  | .ok headCommit =>
    .ok (verifyChain repo (buildGraph s.objects fuel [headCommit.mgitHash] [] []))

/-! ### Shared lemmas -/

deriving instance DecidableEq for Except

theorem foldl_hexAppend (ps : List Str) (a : Str) :
    ps.foldl (fun h p => h ++ hexDecode20 p) a = a ++ (ps.map hexDecode20).flatten := by
  induction ps generalizing a with
  | nil => simp
  | cons p rest ih => simp [ih, List.append_assoc]

theorem hexDecode20_length (s : Str) : (hexDecode20 s).length = 20 := by
  have h : ((hexPairs s).take 20).length ≤ 20 := List.length_take_le 20 (hexPairs s)
  simp only [hexDecode20, List.length_append, List.length_replicate]
  omega

theorem lookupEntry_setEntry_self (s : ObjStore) (k : Str × Str) (v : MCommitStruct) :
    lookupEntry (setEntry s k v) k = some v := by
  induction s with
  | nil => simp [setEntry, lookupEntry, List.find?]
  | cons e rest ih =>
    by_cases h : e.1 = k
    · simp [setEntry, h, lookupEntry, List.find?]
    · have hne : ¬ ((fun x : (Str × Str) × MCommitStruct => x.1 == k) e = true) := by simp [h]
      simp only [setEntry, if_neg h, lookupEntry]
      rw [@List.find?_cons_of_neg _ (fun x => x.1 == k) e (setEntry rest k v) hne]
      exact ih

/-! ### C1 -/

/-- C1 (confirmed): the Hash Engine digest is computed over exactly the tree
hash bytes, each parent overlay hash (decoded through `plumbing.NewHash`) in
order, the author line (name, email, Unix timestamp, identity key), and then
the committer line twice; and the commit message never enters the digest
(changing only the message leaves the digest unchanged). -/
theorem c1_digest_structure (c : GitCommit) (ps : List Str) (pk : Str) :
    computeMGitHash c ps pk =
      c.treeHash ++ (ps.map hexDecode20).flatten ++ authorLine c pk
        ++ committerLine c pk ++ committerLine c pk
    ∧ ∀ msg : Str, computeMGitHash { c with message := msg } ps pk = computeMGitHash c ps pk := by
  constructor
  · simp [computeMGitHash, foldl_hexAppend, List.append_assoc]
  · intro msg
    rfl

/-! ### C10 -/

/-- Record with a non-empty overlay hash of a single byte. -/
def c10Rec : MCommitStruct :=
  { type := .commit, mgitHash := bytes ("a"), gitHash := [],
    treeHash := [], parentHashes := [], author := ⟨[], [], [], 0⟩,
    committer := ⟨[], [], [], 0⟩, message := [], metadata := [] }

/-- C10 (confirmed): `StoreCommit` on a record whose overlay hash is
non-empty but shorter than two bytes passes the explicit empty-hash check
and then panics on the `MGitHash[:2]` shard slice instead of returning an
error. -/
theorem c10_short_hash_panic :
    c10Rec.mgitHash ≠ [] ∧ StoreCommit [] c10Rec = .panicSlice
      ∧ StoreCommit [] c10Rec ≠ .errEmptyHash := by decide

/-! ### C3 -/

/-- Underlying git hash of the child commit (0x11 repeated). -/
def c3G1 : List Nat := List.replicate 20 17

/-- Underlying git hash of the (unmapped) parent commit (0x22 repeated). -/
def c3P0 : List Nat := List.replicate 20 34

/-- Overlay hash assigned to the child by the mapping table. -/
def c3MH : Str := bytes ("aaaaaaaaaaaaaaaaaaaaaaaaaaaaaaaaaaaaaaaa")

/-- The child commit: one parent, which has no mapping-table entry. -/
def c3Commit : GitCommit :=
  { treeHash := List.replicate 20 51, parentHashes := [c3P0],
    author := ⟨bytes ("a"), bytes ("b"), 0⟩, committer := ⟨bytes ("a"), bytes ("b"), 0⟩,
    message := bytes ("m") }

/-- Mapping table containing only the child. -/
def c3Maps : List NostrCommitMapping := [⟨hashHex c3G1, c3MH, bytes ("pk")⟩]

/-- Underlying repository for the C3 scenario. -/
def c3Repo : GitRepo :=
  { commits := [(c3G1, c3Commit)], branches := [(bytes ("main"), c3G1)],
    head := .branch (bytes ("main")) }

/-- The record reconstruction stores for the child, read back from the
reconstructed state. -/
def c3Stored : Except GetErr MCommitStruct :=
  match reconstructMGitObjects ⟨[], [], none⟩ c3Repo c3Maps with
  | .ok s1 => GetCommit s1.objects c3MH
  | .error _ => .error .notFound

/-- C3 counterexample: reconstructing a commit whose single parent has no
mapping-table entry stores a record whose `parentOverlayHashes` is empty —
the raw parent source hash is *not* used as a placeholder, and the rebuilt
list is shorter than the underlying commit's parent list. -/
theorem c3_counterexample :
    c3Stored.map (fun r => r.parentHashes) = .ok []
      ∧ c3Commit.parentHashes = [c3P0]
      ∧ ([] : List Str) ≠ [hashHex c3P0] := by decide

/-- C3 (amended): during reconstruction the rebuilt `parentOverlayHashes`
keeps, in the underlying order, exactly the parents that have a
mapping-table entry (first match each); a parent without an entry is
silently dropped, so the rebuilt list can be shorter than the underlying
parent list (and is never longer). -/
theorem c3_parents_filter (mappings : List NostrCommitMapping) (pgs : List (List Nat)) :
    reconstructParents mappings pgs
        = pgs.filterMap (fun pg => findParentMGit mappings (hashHex pg))
      ∧ (reconstructParents mappings pgs).length ≤ pgs.length := by
  have key : ∀ (l : List (List Nat)) (acc : List Str),
      l.foldl (fun acc pg =>
          match findParentMGit mappings (hashHex pg) with
          | some h => acc ++ [h]
          | none => acc) acc
        = acc ++ l.filterMap (fun pg => findParentMGit mappings (hashHex pg)) := by
    intro l
    induction l with
    | nil => simp
    | cons pg rest ih =>
      intro acc
      cases hf : findParentMGit mappings (hashHex pg) with
      | none => simp [List.filterMap_cons, hf, ih]
      | some h => simp [List.filterMap_cons, hf, ih, List.append_assoc]
  constructor
  · simpa [reconstructParents] using key pgs []
  · have h1 : reconstructParents mappings pgs
        = pgs.filterMap (fun pg => findParentMGit mappings (hashHex pg)) := by
      simpa [reconstructParents] using key pgs []
    rw [h1]
    exact List.length_filterMap_le _ _

/-! ### C7 -/

/-- Mapping table with two records, all hashes distinct. -/
def c7T : List NostrCommitMapping :=
  [⟨bytes ("g1"), bytes ("m1"), bytes ("ka")⟩, ⟨bytes ("g2"), bytes ("m2"), bytes ("kb")⟩]

/-- C7 counterexample: appending `(g1, m2, kc)` to a table already holding
`(g1, m1)` and `(g2, m2)` replaces only the first record sharing a hash
(the `g1` record), leaving *two* live records with overlay hash `m2`. -/
theorem c7_counterexample :
    StoreMapping c7T (bytes ("g1")) (bytes ("m2")) (bytes ("kc"))
        = [⟨bytes ("g1"), bytes ("m2"), bytes ("kc")⟩, ⟨bytes ("g2"), bytes ("m2"), bytes ("kb")⟩]
      ∧ (StoreMapping c7T (bytes ("g1")) (bytes ("m2")) (bytes ("kc"))).countP
          (fun r => r.mgitHash == bytes ("m2")) = 2 := by decide

/-- C7 (amended): a mapping-table append replaces the first record sharing
either hash and appends only when none matches; provided at most one
existing record shares either of the two hashes, the table afterwards holds
exactly one live record with that source hash and exactly one with that
overlay hash. -/
theorem c7_append_unique (T : List NostrCommitMapping) (g m p : Str)
    (h : T.countP (fun r => r.gitHash == g || r.mgitHash == m) ≤ 1) :
    (StoreMapping T g m p).countP (fun r => r.gitHash == g) = 1
      ∧ (StoreMapping T g m p).countP (fun r => r.mgitHash == m) = 1 := by
  induction T with
  | nil => simp [StoreMapping]
  | cons r rest ih =>
    by_cases hr : r.gitHash = g ∨ r.mgitHash = m
    · have hPr : (r.gitHash == g || r.mgitHash == m) = true := by
        rcases hr with hg | hm
        · simp [hg]
        · simp [hm]
      have hcnt : rest.countP (fun r => r.gitHash == g || r.mgitHash == m) = 0 := by
        have hc := h
        rw [List.countP_cons] at hc
        rw [hPr] at hc
        rw [if_pos rfl] at hc
        omega
      have hg0 : rest.countP (fun r => r.gitHash == g) = 0 := by
        rw [List.countP_eq_zero] at hcnt ⊢
        intro a ha
        have := hcnt a ha
        simp only [Bool.or_eq_true, beq_iff_eq] at this ⊢
        tauto
      have hm0 : rest.countP (fun r => r.mgitHash == m) = 0 := by
        rw [List.countP_eq_zero] at hcnt ⊢
        intro a ha
        have := hcnt a ha
        simp only [Bool.or_eq_true, beq_iff_eq] at this ⊢
        tauto
      have hstep : StoreMapping (r :: rest) g m p = ⟨g, m, p⟩ :: rest := by
        rw [StoreMapping, if_pos hr]
      rw [hstep]
      constructor
      · rw [List.countP_cons, hg0]
        simp
      · rw [List.countP_cons, hm0]
        simp
    · push_neg at hr
      have hstep : StoreMapping (r :: rest) g m p = r :: StoreMapping rest g m p := by
        rw [StoreMapping, if_neg]
        tauto
      have hPr : (r.gitHash == g || r.mgitHash == m) = false := by
        simp [hr.1, hr.2]
      have hrest : rest.countP (fun r => r.gitHash == g || r.mgitHash == m) ≤ 1 := by
        have hc := h
        rw [List.countP_cons] at hc
        rw [hPr] at hc
        rw [if_neg Bool.false_ne_true] at hc
        omega
      have hih := ih hrest
      rw [hstep]
      constructor
      · rw [List.countP_cons]
        simp [hr.1, hih.1]
      · rw [List.countP_cons]
        simp [hr.2, hih.2]

/-- C7 amended witness: appending to a one-record table sharing neither
hash yields exactly one record per hash. -/
theorem c7_append_unique_witness :
    (StoreMapping [⟨bytes ("g3"), bytes ("m3"), bytes ("k")⟩] (bytes ("g")) (bytes ("m"))
        (bytes ("k2"))).countP (fun r => r.gitHash == bytes ("g")) = 1
      ∧ (StoreMapping [⟨bytes ("g3"), bytes ("m3"), bytes ("k")⟩] (bytes ("g")) (bytes ("m"))
        (bytes ("k2"))).countP (fun r => r.mgitHash == bytes ("m")) = 1 :=
  c7_append_unique [⟨bytes ("g3"), bytes ("m3"), bytes ("k")⟩] (bytes ("g")) (bytes ("m"))
    (bytes ("k2")) (by decide)

/-! ### C4 -/

/-- Record with a short (3-byte) but non-empty overlay hash. -/
def c4Rec : MCommitStruct :=
  { type := .commit, mgitHash := bytes ("abc"), gitHash := [],
    treeHash := [], parentHashes := [], author := ⟨[], [], [], 0⟩,
    committer := ⟨[], [], [], 0⟩, message := [], metadata := [] }

/-- C4 counterexample: for a record with the non-empty overlay hash `abc`,
`put` succeeds, but `get` with the record's full overlay hash fails (hash
shorter than the 4-byte minimum), so the round trip does not hold for every
record with a non-empty overlay hash. -/
theorem c4_counterexample :
    c4Rec.mgitHash ≠ []
      ∧ StoreCommit [] c4Rec = .ok [((bytes ("ab"), bytes ("c")), c4Rec)]
      ∧ GetCommit [((bytes ("ab"), bytes ("c")), c4Rec)] c4Rec.mgitHash = .error .tooShort := by
  decide

/-- C4 (amended): for every record whose overlay hash has at least the full
40-byte hash width, `put` succeeds, and a subsequent `get` with the full
overlay hash returns the stored record — equal to the original in every
field except `Type`, which `put` always sets to `commit`. -/
theorem c4_round_trip (store : ObjStore) (c : MCommitStruct) (h : 40 ≤ c.mgitHash.length) :
    ∃ s', StoreCommit store c = .ok s'
      ∧ GetCommit s' c.mgitHash = .ok { c with type := .commit } := by
  have hne : ¬ c.mgitHash = [] := by
    intro he
    rw [he] at h
    simp at h
  have h2 : ¬ c.mgitHash.length < 2 := by omega
  refine ⟨setEntry store (c.mgitHash.take 2, c.mgitHash.drop 2) { c with type := .commit },
    ?_, ?_⟩
  · simp [StoreCommit, hne, h2]
  · have h4 : ¬ c.mgitHash.length < 4 := by omega
    have h40 : ¬ c.mgitHash.length < 40 := by omega
    simp [GetCommit, readObject, h4, h40, lookupEntry_setEntry_self]

/-- 40-byte overlay hash fixture for the C4 witness. -/
def c4W : MCommitStruct :=
  { type := .tree, mgitHash := bytes ("0123456789012345678901234567890123456789"),
    gitHash := [], treeHash := [], parentHashes := [], author := ⟨[], [], [], 0⟩,
    committer := ⟨[], [], [], 0⟩, message := [], metadata := [] }

/-- C4 amended witness at a concrete record. -/
theorem c4_round_trip_witness :
    ∃ s', StoreCommit [] c4W = .ok s'
      ∧ GetCommit s' c4W.mgitHash = .ok { c4W with type := .commit } :=
  c4_round_trip [] c4W (by decide)

/-! ### C9 -/

/-- The digest stream written by `computeMGitHash`, flattened: tree hash,
the decoded parent hashes in order, author line, committer line twice. -/
theorem computeMGitHash_eq (c : GitCommit) (ps : List Str) (pk : Str) :
    computeMGitHash c ps pk =
      c.treeHash ++ (ps.map hexDecode20).flatten ++ authorLine c pk
        ++ committerLine c pk ++ committerLine c pk := by
  simp [computeMGitHash, foldl_hexAppend, List.append_assoc]

/-- Concatenation of fixed-width (20-byte) blocks is injective in the block
list. -/
theorem flatten_fixed_inj (B1 B2 : List (List Nat)) (h1 : ∀ b ∈ B1, b.length = 20)
    (h2 : ∀ b ∈ B2, b.length = 20) (he : B1.flatten = B2.flatten) : B1 = B2 := by
  induction B1 generalizing B2 with
  | nil =>
    cases B2 with
    | nil => rfl
    | cons b t =>
      exfalso
      rw [List.flatten_nil, List.flatten_cons] at he
      have hb0 : b = [] := (List.append_eq_nil.mp he.symm).1
      have hb := h2 b (by simp)
      rw [hb0] at hb
      simp at hb
  | cons b1 t1 ih =>
    cases B2 with
    | nil =>
      exfalso
      rw [List.flatten_nil, List.flatten_cons] at he
      have hb0 : b1 = [] := (List.append_eq_nil.mp he).1
      have hb := h1 b1 (by simp)
      rw [hb0] at hb
      simp at hb
    | cons b2 t2 =>
      rw [List.flatten_cons, List.flatten_cons] at he
      have hlen : b1.length = b2.length := by
        rw [h1 b1 (by simp), h2 b2 (by simp)]
      have hsp := List.append_inj he hlen
      have ht := ih t2 (fun b hb => h1 b (by simp [hb])) (fun b hb => h2 b (by simp [hb])) hsp.2
      rw [hsp.1, ht]

/-- C9 (amended): swapping two entries of `parentOverlayHashes` whose
`plumbing.NewHash` decodings differ — in particular any two distinct
canonical 40-hex overlay hashes — changes the computed overlay hash, all
other inputs held fixed.  (The unamended claim fails when the two swapped
entries decode to the same 20 bytes, e.g. the same hash in different
case.) -/
theorem c9_parent_swap (c : GitCommit) (ps : List Str) (pk : Str) (i j : Nat)
    (hi : i < ps.length) (hj : j < ps.length)
    (hne : hexDecode20 (ps.get ⟨i, hi⟩) ≠ hexDecode20 (ps.get ⟨j, hj⟩)) :
    computeMGitHash c ((ps.set i (ps.get ⟨j, hj⟩)).set j (ps.get ⟨i, hi⟩)) pk
      ≠ computeMGitHash c ps pk := by
  intro he
  have hij : i ≠ j := by
    intro h'
    exact hne (by subst h'; rfl)
  rw [computeMGitHash_eq, computeMGitHash_eq] at he
  have h1 := List.append_cancel_right he
  have h2 := List.append_cancel_right h1
  have h3 := List.append_cancel_right h2
  have h4 := List.append_cancel_left h3
  have hmap : ((ps.set i (ps.get ⟨j, hj⟩)).set j (ps.get ⟨i, hi⟩)).map hexDecode20
      = ((ps.map hexDecode20).set i (hexDecode20 (ps.get ⟨j, hj⟩))).set j
          (hexDecode20 (ps.get ⟨i, hi⟩)) := by
    rw [List.map_set, List.map_set]
  rw [hmap] at h4
  have hB := flatten_fixed_inj _ _
    (fun b hb => by
      rcases List.mem_or_eq_of_mem_set hb with hb' | hb'
      · rcases List.mem_or_eq_of_mem_set hb' with hb'' | hb''
        · rcases List.mem_map.mp hb'' with ⟨a, _, ha⟩
          rw [← ha]
          exact hexDecode20_length a
        · rw [hb'']
          exact hexDecode20_length _
      · rw [hb']
        exact hexDecode20_length _)
    (fun b hb => by
      rcases List.mem_map.mp hb with ⟨a, _, ha⟩
      rw [← ha]
      exact hexDecode20_length a)
    h4
  have hq := congrArg (fun l => l[i]?) hB
  simp only at hq
  rw [List.getElem?_set_ne (Ne.symm hij)] at hq
  rw [List.getElem?_set_self (by rw [List.length_map]; exact hi)] at hq
  rw [List.getElem?_map, List.getElem?_eq_getElem hi] at hq
  simp at hq
  exact hne (by simpa [List.get_eq_getElem] using hq.symm)

/-- Commit fixture for the C9 statements. -/
def c9Commit : GitCommit :=
  { treeHash := List.replicate 20 0, parentHashes := [],
    author := ⟨bytes ("a"), bytes ("b"), 0⟩, committer := ⟨bytes ("a"), bytes ("b"), 0⟩,
    message := bytes ("m") }

/-- An overlay parent hash written in uppercase hex. -/
def c9PA : Str := bytes ("AAAAAAAAAAAAAAAAAAAAAAAAAAAAAAAAAAAAAAAA")

/-- The same 20-byte value written in lowercase hex. -/
def c9Pa : Str := bytes ("aaaaaaaaaaaaaaaaaaaaaaaaaaaaaaaaaaaaaaaa")

/-- C9 counterexample: a commit with two distinct parent entries that
`plumbing.NewHash` decodes to the same 20 bytes (the same hash in upper and
lower case) has the *same* computed overlay hash after swapping them, so
swapping two entries does not change the hash for every commit input. -/
theorem c9_counterexample :
    computeMGitHash c9Commit [c9Pa, c9PA] (bytes ("pk"))
        = computeMGitHash c9Commit [c9PA, c9Pa] (bytes ("pk"))
      ∧ [c9Pa, c9PA] ≠ [c9PA, c9Pa]
      ∧ ([c9PA, c9Pa] : List Str).length = 2 := by decide

/-- Two parent hashes with distinct decodings for the C9 witness. -/
def c9W1 : Str := bytes ("1111111111111111111111111111111111111111")

/-- Second distinct parent hash for the C9 witness. -/
def c9W2 : Str := bytes ("2222222222222222222222222222222222222222")

/-- C9 amended witness: swapping two decoded-distinct parents changes the
hash at a concrete input. -/
theorem c9_parent_swap_witness :
    computeMGitHash c9Commit [c9W2, c9W1] (bytes ("pk"))
      ≠ computeMGitHash c9Commit [c9W1, c9W2] (bytes ("pk")) := by
  have h := c9_parent_swap c9Commit [c9W1, c9W2] (bytes ("pk")) 0 1 (by decide) (by decide)
    (by decide)
  simpa using h

/-! ### C6 -/

/-- Number of stored objects whose full hash (shard directory name ++ file
name) extends the query prefix. -/
def extCount (store : ObjStore) (p : Str) : Nat :=
  store.countP (fun e => p.isPrefixOf (e.1.1 ++ e.1.2))

/-- For a two-byte shard directory name, the sharded match condition of
`findObjectByPrefix` coincides with prefix extension of the full hash. -/
theorem prefix_shard_iff (d f p : Str) (hd : d.length = 2) (hp : 2 ≤ p.length) :
    (d = p.take 2 ∧ p.drop 2 <+: f) ↔ p <+: (d ++ f) := by
  constructor
  · rintro ⟨h1, ⟨t, ht⟩⟩
    refine ⟨t, ?_⟩
    calc p ++ t = (p.take 2 ++ p.drop 2) ++ t := by rw [List.take_append_drop]
      _ = p.take 2 ++ (p.drop 2 ++ t) := by rw [List.append_assoc]
      _ = d ++ f := by rw [← h1, ht]
  · rintro ⟨t, ht⟩
    have hassoc : p.take 2 ++ (p.drop 2 ++ t) = d ++ f := by
      rw [← List.append_assoc, List.take_append_drop]
      exact ht
    have hlen2 : (p.take 2).length = d.length := by
      rw [List.length_take, hd]
      omega
    have hsp := List.append_inj hassoc hlen2
    exact ⟨hsp.1.symm, ⟨t, hsp.2⟩⟩

/-- Under well-formed sharding, `findObjectByPrefix` returns exactly the
full hashes of the stored entries extending the prefix. -/
theorem findObjectByPrefix_eq (store : ObjStore) (p : Str)
    (hwf : ∀ e ∈ store, e.1.1.length = 2) (hp : 3 ≤ p.length) :
    findObjectByPrefix store p
      = (store.filter (fun e => p.isPrefixOf (e.1.1 ++ e.1.2))).map
          (fun e => p.take 2 ++ e.1.2) := by
  unfold findObjectByPrefix
  rw [if_neg (by omega)]
  congr 1
  apply List.filter_congr
  intro e he
  rw [Bool.eq_iff_iff]
  have hd := hwf e he
  have h2 : 2 ≤ p.length := by omega
  constructor
  · intro hx
    simp only [Bool.and_eq_true, beq_iff_eq, List.isPrefixOf_iff_prefix] at hx
    exact List.isPrefixOf_iff_prefix.mpr
      ((prefix_shard_iff e.1.1 e.1.2 p hd h2).mp ⟨hx.1, hx.2⟩)
  · intro hx
    have hh := (prefix_shard_iff e.1.1 e.1.2 p hd h2).mpr (List.isPrefixOf_iff_prefix.mp hx)
    simp only [Bool.and_eq_true, beq_iff_eq, List.isPrefixOf_iff_prefix]
    exact ⟨hh.1, hh.2⟩

/-- With no duplicate paths, reading an entry's own path returns it. -/
theorem lookupEntry_of_mem_nodup (store : ObjStore) (e : (Str × Str) × MCommitStruct)
    (hnd : (store.map (fun x => x.1)).Nodup) (he : e ∈ store) :
    lookupEntry store e.1 = some e.2 := by
  induction store with
  | nil => cases he
  | cons x rest ih =>
    rw [List.map_cons, List.nodup_cons] at hnd
    rcases List.mem_cons.mp he with he' | he'
    · subst he'
      simp only [lookupEntry]
      rw [@List.find?_cons_of_pos _ (fun y => y.1 == e.1) e rest (by simp)]
      rfl
    · have hx : x.1 ≠ e.1 := by
        intro hk
        exact hnd.1 (by rw [hk]; exact List.mem_map.mpr ⟨e, he', rfl⟩)
      have hne : ¬ ((fun y : (Str × Str) × MCommitStruct => y.1 == e.1) x = true) := by
        simp [hx]
      simp only [lookupEntry]
      rw [@List.find?_cons_of_neg _ (fun y => y.1 == e.1) x rest hne]
      exact ih hnd.2 he'

/-- C6 (confirmed): for a well-formed store (two-byte shard directories, no
duplicate paths), a query prefix shorter than 4 bytes is rejected, and a
prefix of length 4…39 yields `NotFound` when no stored hash extends it, the
unique extending record when exactly one does, and `Ambiguous` when two or
more do. -/
theorem c6_prefix_resolution (store : ObjStore) (p : Str)
    (hwf : ∀ e ∈ store, e.1.1.length = 2)
    (hnd : (store.map (fun x => x.1)).Nodup) :
    (p.length < 4 → GetCommit store p = .error .tooShort)
      ∧ (4 ≤ p.length → p.length < 40 →
          ((extCount store p = 0 → GetCommit store p = .error .notFound)
            ∧ (extCount store p = 1 → ∀ e ∈ store, p <+: (e.1.1 ++ e.1.2) →
                GetCommit store p = .ok e.2)
            ∧ (2 ≤ extCount store p → GetCommit store p = .error .ambiguous))) := by
  constructor
  · intro h4
    rw [GetCommit, if_pos h4]
  · intro h4 h40
    have hp3 : 3 ≤ p.length := by omega
    have hcnt : extCount store p
        = ((store.filter (fun e => p.isPrefixOf (e.1.1 ++ e.1.2))).length) :=
      List.countP_eq_length_filter _ _
    have hfind := findObjectByPrefix_eq store p hwf hp3
    have hstep : GetCommit store p =
        match findObjectByPrefix store p with
        | [] => .error .notFound
        | [m] => readObject store m
        | _ :: _ :: _ => .error .ambiguous := by
      rw [GetCommit, if_neg (by omega), if_pos h40]
    refine ⟨?_, ?_, ?_⟩
    · intro h0
      rw [hcnt] at h0
      have hnil : store.filter (fun e => p.isPrefixOf (e.1.1 ++ e.1.2)) = [] :=
        List.length_eq_zero.mp h0
      rw [hstep, hfind, hnil, List.map_nil]
    · intro h1 e he hext
      rw [hcnt] at h1
      obtain ⟨x, hx⟩ := List.length_eq_one.mp h1
      have hein : e ∈ store.filter (fun e => p.isPrefixOf (e.1.1 ++ e.1.2)) :=
        List.mem_filter.mpr ⟨he, List.isPrefixOf_iff_prefix.mpr hext⟩
      have hex : e = x := by
        rw [hx] at hein
        simpa using hein
      subst hex
      rw [hstep, hfind, hx]
      simp only [List.map_cons, List.map_nil]
      have hd := hwf e he
      have hsh := (prefix_shard_iff e.1.1 e.1.2 p hd (by omega)).mpr hext
      have htk : (p.take 2 ++ e.1.2).take 2 = p.take 2 :=
        List.take_left' (by rw [List.length_take]; omega)
      have hdr : (p.take 2 ++ e.1.2).drop 2 = e.1.2 :=
        List.drop_left' (by rw [List.length_take]; omega)
      rw [readObject, htk, hdr, ← hsh.1]
      have hlk : lookupEntry store (e.1.1, e.1.2) = some e.2 := by
        have := lookupEntry_of_mem_nodup store e hnd he
        simpa using this
      rw [hlk]
    · intro h2
      rw [hcnt] at h2
      have hsh : ∃ a b t, store.filter (fun e => p.isPrefixOf (e.1.1 ++ e.1.2)) = a :: b :: t := by
        rcases hl : store.filter (fun e => p.isPrefixOf (e.1.1 ++ e.1.2))
          with _ | ⟨a, _ | ⟨b, t⟩⟩
        · rw [hl] at h2
          simp at h2
        · rw [hl] at h2
          simp at h2
        · exact ⟨a, b, t, hl⟩
      obtain ⟨a, b, t, hl⟩ := hsh
      rw [hstep, hfind, hl, List.map_cons, List.map_cons]

/-- Store fixture for the C6 witness: two sharded records. -/
def c6Store : ObjStore :=
  [((bytes ("ab"), bytes ("cd1234")), c10Rec), ((bytes ("ab"), bytes ("ce1234")), c4Rec)]

/-- C6 witness: at a concrete store, a unique 4-byte prefix resolves to the
stored record, and the three hypotheses of the theorem hold by computation. -/
theorem c6_prefix_resolution_witness :
    GetCommit c6Store (bytes ("abcd")) = .ok c10Rec := by
  have h := (c6_prefix_resolution c6Store (bytes ("abcd")) (by decide) (by decide)).2
    (by decide) (by decide)
  exact h.2.1 (by decide) ((bytes ("ab"), bytes ("cd1234")), c10Rec) (by decide)
    (by decide)

/-! ### C2 -/

/-- The verification fold equals the conjunction of the per-commit check
over every collected record: the loop never aborts early, and its flag is
true exactly when all checks pass. -/
theorem verifyChain_eq_all (repo : GitRepo) (graph : List (Str × MCommitStruct)) :
    verifyChain repo graph = graph.all (fun p => checkCommit repo p.1 p.2) := by
  have main : ∀ (g : List (Str × MCommitStruct)) (b : Bool),
      g.foldl
        (fun valid p =>
          match lookupGitCommit repo (hexDecode20 p.2.gitHash) with
          | none => false
          | some gc =>
            if computeMGitHash gc p.2.parentHashes p.2.author.pubkey ≠ p.1 then false else valid)
        b
      = (b && g.all (fun p => checkCommit repo p.1 p.2)) := by
    intro g
    induction g with
    | nil =>
      intro b
      simp
    | cons p t ih =>
      intro b
      rw [List.foldl_cons, List.all_cons]
      have step_eq :
          (match lookupGitCommit repo (hexDecode20 p.2.gitHash) with
            | none => false
            | some gc =>
              if computeMGitHash gc p.2.parentHashes p.2.author.pubkey ≠ p.1 then false else b)
          = (b && checkCommit repo p.1 p.2) := by
        cases hlk : lookupGitCommit repo (hexDecode20 p.2.gitHash) with
        | none => simp [checkCommit, hlk]
        | some gc =>
          by_cases hh : computeMGitHash gc p.2.parentHashes p.2.author.pubkey = p.1
          · simp [checkCommit, hlk, hh]
          · simp [checkCommit, hlk, hh]
      rw [step_eq, ih, ← Bool.and_assoc]
  have h0 := main graph true
  rw [Bool.true_and] at h0
  exact h0

/-- C2 (amended): the verifier returns `valid = true` exactly when, for
every record it could *load* during the traversal, the underlying commit
loads by the recorded source hash and the recomputed overlay hash equals
the hash the record is stored under; a reachable record that fails to load
is skipped with a printed error and does not affect validity; the loop
never aborts at the first failure (validity is the conjunction over the
whole collected set). -/
theorem c2_verify_iff (repo : GitRepo) (graph : List (Str × MCommitStruct)) :
    verifyChain repo graph = true ↔ ∀ p ∈ graph, checkCommit repo p.1 p.2 = true := by
  rw [verifyChain_eq_all]
  exact List.all_eq_true

/-- Identity key of the C2 scenario. -/
def c2Pk : Str := bytes ("p")

/-- Underlying git hash of the single stored commit. -/
def c2GitHash : List Nat := List.replicate 20 68

/-- The single underlying commit. -/
def c2Git : GitCommit :=
  { treeHash := List.replicate 20 0, parentHashes := [],
    author := ⟨bytes ("a"), bytes ("b"), 0⟩, committer := ⟨bytes ("a"), bytes ("b"), 0⟩,
    message := bytes ("m") }

/-- A parent overlay hash recorded in the HEAD record but absent from the
object store. -/
def c2P : Str := bytes ("4444444444444444444444444444444444444444")

/-- The overlay hash of the HEAD record (its correct recomputed digest,
over the dangling parent). -/
def c2Key : Str := computeMGitHash c2Git [c2P] c2Pk

/-- The HEAD record: hash-consistent, but pointing at the missing parent
`c2P`. -/
def c2RecA : MCommitStruct :=
  { type := .commit, mgitHash := c2Key, gitHash := hashHex c2GitHash,
    treeHash := hashHex (List.replicate 20 0), parentHashes := [c2P],
    author := ⟨bytes ("a"), bytes ("b"), c2Pk, 0⟩,
    committer := ⟨bytes ("a"), bytes ("b"), c2Pk, 0⟩,
    message := bytes ("m"), metadata := [] }

/-- Underlying repository of the C2 scenario. -/
def c2Repo : GitRepo :=
  { commits := [(c2GitHash, c2Git)], branches := [], head := .branch (bytes ("main")) }

/-- Overlay state: only the HEAD record is stored; HEAD is detached at it. -/
def c2State : MGitState :=
  { objects := [((c2Key.take 2, c2Key.drop 2), c2RecA)], refs := [], head := some c2Key }

/-- C2 counterexample: the record `c2P` is reachable from HEAD via
`parentOverlayHashes` but cannot be loaded, yet the verify operation
returns overall success — a load failure during traversal is skipped and
never clears the `valid` flag, contradicting the claimed equivalence. -/
theorem c2_counterexample :
    HandleMGitVerify c2State c2Repo 4 = .ok true
      ∧ c2P ∈ c2RecA.parentHashes
      ∧ GetCommit c2State.objects c2P = .error .notFound := by decide

/-! ### C8 -/

/-- Well-formed mapping table: every overlay hash has at least the full
40-byte hash width (true of every table the system itself writes, whose
overlay hashes are 40-hex renderings). -/
def WFMaps (maps : List NostrCommitMapping) : Prop :=
  ∀ r ∈ maps, 40 ≤ r.mgitHash.length

instance (maps : List NostrCommitMapping) : Decidable (WFMaps maps) := by
  unfold WFMaps
  infer_instance

/-- A single mapping-loop iteration never dies when the mapping's overlay
hash has full width. -/
theorem processMapping_ok (repo : GitRepo) (maps : List NostrCommitMapping) (store : ObjStore)
    (m : NostrCommitMapping) (hm : 40 ≤ m.mgitHash.length) :
    ∃ s', processMapping repo maps store m = .ok s' := by
  have hne : ¬ (m.mgitHash = ([] : Str)) := by
    intro h
    rw [h] at hm
    simp at hm
  have h2 : ¬ (m.mgitHash.length < 2) := by omega
  have h7 : ¬ (m.mgitHash.length < 7) := by omega
  cases hg : GetCommit store m.mgitHash with
  | ok c => exact ⟨store, by simp [processMapping, hg]⟩
  | error e =>
    cases hl : lookupGitCommit repo (hexDecode20 m.gitHash) with
    | none => exact ⟨store, by simp [processMapping, hg, hl]⟩
    | some gc =>
      refine ⟨setEntry store (m.mgitHash.take 2, m.mgitHash.drop 2)
        { reconRecord maps m gc with type := .commit }, ?_⟩
      have hrm : (reconRecord maps m gc).mgitHash = m.mgitHash := rfl
      simp only [processMapping, hg, hl, StoreCommit, hrm, if_neg hne, if_neg h2, if_neg h7]

/-- The whole mapping loop never dies over a well-formed table. -/
theorem processMappings_ok (repo : GitRepo) (maps : List NostrCommitMapping) (store : ObjStore)
    (l : List NostrCommitMapping) (hwf : ∀ r ∈ l, 40 ≤ r.mgitHash.length) :
    ∃ s', processMappings repo maps store l = .ok s' := by
  induction l generalizing store with
  | nil => exact ⟨store, rfl⟩
  | cons m rest ih =>
    obtain ⟨s1, hs1⟩ := processMapping_ok repo maps store m (hwf m (by simp))
    obtain ⟨s2, hs2⟩ := ih s1 (fun r hr => hwf r (by simp [hr]))
    exact ⟨s2, by simp [processMappings, hs1, hs2]⟩

/-- The branch loop never dies over a well-formed table. -/
theorem updateBranchRefs_ok (maps : List NostrCommitMapping) (branches : List (Str × List Nat))
    (refs : Refs) (hwf : WFMaps maps) :
    ∃ r', updateBranchRefs maps branches refs = .ok r' := by
  induction branches generalizing refs with
  | nil => exact ⟨refs, rfl⟩
  | cons b rest ih =>
    cases hf : maps.find? (fun m => m.gitHash == hashHex b.2) with
    | none =>
      obtain ⟨r', hr'⟩ := ih refs
      exact ⟨r', by simp [updateBranchRefs, hf, hr']⟩
    | some m =>
      have hmem : m ∈ maps := List.mem_of_find?_eq_some hf
      have h7 : ¬ (m.mgitHash.length < 7) := by
        have := hwf m hmem
        omega
      obtain ⟨r', hr'⟩ := ih (UpdateRef refs (bytes ("refs/heads/") ++ b.1) m.mgitHash)
      exact ⟨r', by simp [updateBranchRefs, hf, if_neg h7, hr']⟩

/-- C8 (confirmed): with the underlying HEAD detached at source hash `g`
over a well-formed mapping table, reconstruction writes the overlay HEAD
file content as exactly the first mapped overlay hash — in particular not
wrapped in a `ref: ` prefix — and fails fatally when no mapping exists for
`g`. -/
theorem c8_detached_head (s0 : MGitState) (repo : GitRepo) (maps : List NostrCommitMapping)
    (g : List Nat) (hwf : WFMaps maps) (hd : repo.head = .detached g) :
    (∀ m, maps.find? (fun r => r.gitHash == hashHex g) = some m →
        ∃ s1, reconstructMGitObjects s0 repo maps = .ok s1
          ∧ s1.head = some m.mgitHash
          ∧ s1.head ≠ some (bytes ("ref: ") ++ m.mgitHash))
      ∧ (maps.find? (fun r => r.gitHash == hashHex g) = none →
          reconstructMGitObjects s0 repo maps = .error .noDetachedMapping) := by
  obtain ⟨objects', hobj⟩ :=
    processMappings_ok repo maps (initLayout s0).objects maps hwf
  obtain ⟨refs', href⟩ := updateBranchRefs_ok maps repo.branches (initLayout s0).refs hwf
  have hpre : reconstructMGitObjects s0 repo maps
      = writeReconHead repo maps { initLayout s0 with objects := objects', refs := refs' } := by
    rw [reconstructMGitObjects]
    rw [hobj, href]
  constructor
  · intro m hf
    have hmem : m ∈ maps := List.mem_of_find?_eq_some hf
    have hlen := hwf m hmem
    have h0 : ¬ (m.mgitHash.length = 0) := by omega
    have h7 : ¬ (m.mgitHash.length < 7) := by omega
    refine ⟨⟨objects', refs', some m.mgitHash⟩, ?_, rfl, ?_⟩
    · rw [hpre, writeReconHead, hd]
      simp only [hf, if_neg h0, if_neg h7]
    · intro hcontra
      have hinj := Option.some.inj hcontra
      have := congrArg List.length hinj
      simp only [List.length_append] at this
      have h5 : (bytes ("ref: ")).length = 5 := by decide
      omega
  · intro hf
    rw [hpre, writeReconHead, hd]
    simp only [hf]

/-- Detached source hash of the C8 witness (0x55 repeated). -/
def c8G : List Nat := List.replicate 20 85

/-- Mapped overlay hash of the C8 witness. -/
def c8MH : Str := bytes ("5555555555555555555555555555555555555555")

/-- Mapping table of the C8 witness. -/
def c8Maps : List NostrCommitMapping := [⟨hashHex c8G, c8MH, bytes ("pk")⟩]

/-- Underlying repository of the C8 witness: detached HEAD at `c8G`. -/
def c8Repo : GitRepo := { commits := [], branches := [], head := .detached c8G }

/-- C8 witness: on a concrete repository with detached HEAD present in the
table, reconstruction writes HEAD as the raw mapped overlay hash. -/
theorem c8_detached_head_witness :
    ∃ s1, reconstructMGitObjects ⟨[], [], none⟩ c8Repo c8Maps = .ok s1
      ∧ s1.head = some c8MH
      ∧ s1.head ≠ some (bytes ("ref: ") ++ c8MH) :=
  (c8_detached_head ⟨[], [], none⟩ c8Repo c8Maps c8G (by decide) rfl).1
    ⟨hashHex c8G, c8MH, bytes ("pk")⟩ (by decide)

/-! ### C5: object-store pass lemmas -/

/-- The sharded object path of a mapping's overlay hash. -/
def mKey (m : NostrCommitMapping) : Str × Str := (m.mgitHash.take 2, m.mgitHash.drop 2)

/-- At full hash width, `GetCommit` is exactly the direct sharded read. -/
theorem GetCommit_full (store : ObjStore) (h : Str) (hl : 40 ≤ h.length) :
    GetCommit store h = readObject store h := by
  rw [GetCommit, if_neg (by omega), if_neg (by omega)]

/-- Writing one path leaves every other path's content unchanged. -/
theorem lookupEntry_setEntry_ne (s : ObjStore) (k' k : Str × Str) (v : MCommitStruct)
    (hne : k' ≠ k) : lookupEntry (setEntry s k' v) k = lookupEntry s k := by
  induction s with
  | nil =>
    simp only [setEntry, lookupEntry]
    rw [List.find?_cons_of_neg _ (by simp [hne])]
  | cons e rest ih =>
    by_cases he : e.1 = k'
    · simp only [setEntry, if_pos he, lookupEntry]
      rw [List.find?_cons_of_neg _ (by simp [hne]),
        List.find?_cons_of_neg _ (by simp [he, hne])]
    · simp only [setEntry, if_neg he, lookupEntry]
      by_cases hek : e.1 = k
      · rw [List.find?_cons_of_pos _ (by simp [hek]), List.find?_cons_of_pos _ (by simp [hek])]
      · rw [List.find?_cons_of_neg _ (by simp [hek]), List.find?_cons_of_neg _ (by simp [hek])]
        simpa [lookupEntry] using ih

/-- `StoreCommit` reports an empty hash only on an empty hash. -/
theorem StoreCommit_errEmpty_inv (store : ObjStore) (c : MCommitStruct)
    (h : StoreCommit store c = .errEmptyHash) : c.mgitHash = [] := by
  rw [StoreCommit] at h
  by_cases h1 : c.mgitHash = ([] : Str)
  · exact h1
  · rw [if_neg h1] at h
    by_cases h2 : c.mgitHash.length < 2
    · rw [if_pos h2] at h
      cases h
    · rw [if_neg h2] at h
      cases h

/-- `StoreCommit` succeeds only by writing the sharded path. -/
theorem StoreCommit_ok_inv (store : ObjStore) (c : MCommitStruct) (s' : ObjStore)
    (h : StoreCommit store c = .ok s') :
    s' = setEntry store (c.mgitHash.take 2, c.mgitHash.drop 2) { c with type := .commit } := by
  rw [StoreCommit] at h
  by_cases h1 : c.mgitHash = ([] : Str)
  · rw [if_pos h1] at h
    cases h
  · rw [if_neg h1] at h
    by_cases h2 : c.mgitHash.length < 2
    · rw [if_pos h2] at h
      cases h
    · rw [if_neg h2] at h
      cases h
      rfl

/-- A successful mapping step never erases a stored path. -/
theorem processMapping_mono (repo : GitRepo) (maps : List NostrCommitMapping)
    (store : ObjStore) (m : NostrCommitMapping) (s' : ObjStore) (k : Str × Str)
    (h : processMapping repo maps store m = .ok s')
    (hk : (lookupEntry store k).isSome = true) : (lookupEntry s' k).isSome = true := by
  simp only [processMapping] at h
  cases hg : GetCommit store m.mgitHash with
  | ok c =>
    simp only [hg] at h
    cases h
    exact hk
  | error e =>
    simp only [hg] at h
    cases hl : lookupGitCommit repo (hexDecode20 m.gitHash) with
    | none =>
      simp only [hl] at h
      cases h
      exact hk
    | some gc =>
      simp only [hl] at h
      cases hsc : StoreCommit store (reconRecord maps m gc) with
      | ok s'' =>
        simp only [hsc] at h
        by_cases h7 : m.mgitHash.length < 7
        · rw [if_pos h7] at h
          cases h
        · rw [if_neg h7] at h
          cases h
          have hset := StoreCommit_ok_inv store (reconRecord maps m gc) _ hsc
          subst hset
          by_cases hkk : ((reconRecord maps m gc).mgitHash.take 2,
              (reconRecord maps m gc).mgitHash.drop 2) = k
          · rw [← hkk, lookupEntry_setEntry_self]
            rfl
          · rw [lookupEntry_setEntry_ne _ _ _ _ hkk]
            exact hk
      | errEmptyHash =>
        simp only [hsc] at h
        cases h
        exact hk
      | panicSlice =>
        simp only [hsc] at h
        cases h

/-- Cons inversion of the mapping loop. -/
theorem processMappings_cons_inv (repo : GitRepo) (maps : List NostrCommitMapping)
    (store : ObjStore) (m : NostrCommitMapping) (rest : List NostrCommitMapping)
    (s' : ObjStore) (h : processMappings repo maps store (m :: rest) = .ok s') :
    ∃ s1, processMapping repo maps store m = .ok s1
      ∧ processMappings repo maps s1 rest = .ok s' := by
  rw [processMappings] at h
  cases hs : processMapping repo maps store m with
  | ok s1 =>
    rw [hs] at h
    exact ⟨s1, rfl, h⟩
  | error e =>
    rw [hs] at h
    cases h

/-- A successful mapping pass never erases a stored path. -/
theorem processMappings_mono (repo : GitRepo) (maps : List NostrCommitMapping)
    (l : List NostrCommitMapping) (store : ObjStore) (s' : ObjStore) (k : Str × Str)
    (h : processMappings repo maps store l = .ok s')
    (hk : (lookupEntry store k).isSome = true) : (lookupEntry s' k).isSome = true := by
  induction l generalizing store with
  | nil =>
    rw [processMappings] at h
    cases h
    exact hk
  | cons m rest ih =>
    obtain ⟨s1, hs1, hrest⟩ := processMappings_cons_inv repo maps store m rest s' h
    exact ih s1 hrest (processMapping_mono repo maps store m s1 k hs1 hk)

/-- After a successful pass, every mapping whose underlying commit exists
has its sharded path present. -/
theorem processMappings_establishes (repo : GitRepo) (maps : List NostrCommitMapping)
    (l : List NostrCommitMapping) (store : ObjStore) (s' : ObjStore)
    (h : processMappings repo maps store l = .ok s') :
    ∀ m ∈ l, 40 ≤ m.mgitHash.length →
      (lookupGitCommit repo (hexDecode20 m.gitHash)).isSome = true →
      (lookupEntry s' (mKey m)).isSome = true := by
  induction l generalizing store with
  | nil =>
    intro m hm
    cases hm
  | cons m0 rest ih =>
    intro m hm hlen hgit
    obtain ⟨s1, hs1, hrest⟩ := processMappings_cons_inv repo maps store m0 rest s' h
    rcases List.mem_cons.mp hm with hm' | hm'
    · subst hm'
      have hstep : (lookupEntry s1 (mKey m)).isSome = true := by
        simp only [processMapping] at hs1
        cases hg : GetCommit store m.mgitHash with
        | ok c =>
          simp only [hg] at hs1
          cases hs1
          have hgg := hg
          rw [GetCommit_full store m.mgitHash hlen, readObject] at hgg
          cases hlk : lookupEntry store (m.mgitHash.take 2, m.mgitHash.drop 2) with
          | none =>
            rw [hlk] at hgg
            cases hgg
          | some c' =>
            rw [mKey, hlk]
            rfl
        | error e =>
          simp only [hg] at hs1
          cases hl : lookupGitCommit repo (hexDecode20 m.gitHash) with
          | none =>
            rw [hl] at hgit
            cases hgit
          | some gc =>
            simp only [hl] at hs1
            cases hsc : StoreCommit store (reconRecord maps m gc) with
            | ok s'' =>
              simp only [hsc] at hs1
              by_cases h7 : m.mgitHash.length < 7
              · rw [if_pos h7] at hs1
                cases hs1
              · rw [if_neg h7] at hs1
                cases hs1
                have hset := StoreCommit_ok_inv store (reconRecord maps m gc) _ hsc
                subst hset
                rw [mKey]
                have hrk : (reconRecord maps m gc).mgitHash = m.mgitHash := rfl
                rw [← hrk, lookupEntry_setEntry_self]
                rfl
            | errEmptyHash =>
              exfalso
              have hemp := StoreCommit_errEmpty_inv store (reconRecord maps m gc) hsc
              have hrk : (reconRecord maps m gc).mgitHash = m.mgitHash := rfl
              rw [hrk] at hemp
              rw [hemp] at hlen
              simp at hlen
            | panicSlice =>
              simp only [hsc] at hs1
              cases hs1
      exact processMappings_mono repo maps rest s1 s' (mKey m) hrest hstep
    · exact ih s1 hrest m hm' hlen hgit

/-- A mapping step whose path is already present, or whose underlying
commit is absent, leaves the store unchanged. -/
theorem processMapping_id (repo : GitRepo) (maps : List NostrCommitMapping)
    (store : ObjStore) (m : NostrCommitMapping) (hlen : 40 ≤ m.mgitHash.length)
    (hcase : (lookupEntry store (mKey m)).isSome = true
      ∨ lookupGitCommit repo (hexDecode20 m.gitHash) = none) :
    processMapping repo maps store m = .ok store := by
  by_cases hk : (lookupEntry store (mKey m)).isSome = true
  · rw [mKey] at hk
    cases hlk : lookupEntry store (m.mgitHash.take 2, m.mgitHash.drop 2) with
    | none =>
      rw [hlk] at hk
      cases hk
    | some c =>
      have hg : GetCommit store m.mgitHash = .ok c := by
        rw [GetCommit_full store m.mgitHash hlen, readObject, hlk]
      simp only [processMapping, hg]
  · have hgitnone : lookupGitCommit repo (hexDecode20 m.gitHash) = none := by
      rcases hcase with hc | hc
      · exact absurd hc hk
      · exact hc
    simp only [processMapping, hgitnone]
    cases hg : GetCommit store m.mgitHash with
    | ok c =>
      exfalso
      apply hk
      rw [GetCommit_full store m.mgitHash hlen, readObject] at hg
      rw [mKey]
      cases hlk : lookupEntry store (m.mgitHash.take 2, m.mgitHash.drop 2) with
      | none =>
        rw [hlk] at hg
        cases hg
      | some c' => rfl
    | error e => rfl

/-- A mapping pass in which every step is a skip leaves the store
unchanged. -/
theorem processMappings_id (repo : GitRepo) (maps : List NostrCommitMapping)
    (l : List NostrCommitMapping) (store : ObjStore)
    (hwf : ∀ m ∈ l, 40 ≤ m.mgitHash.length)
    (hcase : ∀ m ∈ l, (lookupEntry store (mKey m)).isSome = true
      ∨ lookupGitCommit repo (hexDecode20 m.gitHash) = none) :
    processMappings repo maps store l = .ok store := by
  induction l with
  | nil => rfl
  | cons m rest ih =>
    have hstep := processMapping_id repo maps store m (hwf m (by simp))
      (hcase m (by simp))
    simp only [processMappings, hstep]
    exact ih (fun r hr => hwf r (by simp [hr])) (fun r hr => hcase r (by simp [hr]))

/-- Re-running the mapping pass over its own result is the identity: every
object it would rebuild is already present (or its underlying commit is
still absent), so every record is skipped. -/
theorem processMappings_idem (repo : GitRepo) (maps : List NostrCommitMapping)
    (store : ObjStore) (s1 : ObjStore) (hwf : WFMaps maps)
    (h : processMappings repo maps store maps = .ok s1) :
    processMappings repo maps s1 maps = .ok s1 := by
  apply processMappings_id repo maps maps s1 (fun m hm => hwf m hm)
  intro m hm
  cases hgit : lookupGitCommit repo (hexDecode20 m.gitHash) with
  | none => exact Or.inr rfl
  | some gc =>
    left
    exact processMappings_establishes repo maps maps store s1 h m hm (hwf m hm)
      (by rw [hgit]; rfl)

/-! ### C5: reference pass lemmas -/

/-- The normalized ref name reconstruction writes for a branch. -/
def rKey (b : Str × List Nat) : Str := bytes ("refs/heads/") ++ b.1

/-- A `refs/heads/…` name is already normalized. -/
theorem normRef_heads (n : Str) :
    normRef (bytes ("refs/heads/") ++ n) = bytes ("refs/heads/") ++ n := by
  have hsplit : bytes ("refs/heads/") = bytes ("refs/") ++ bytes ("heads/") := by decide
  have hpre : (bytes ("refs/")).isPrefixOf (bytes ("refs/heads/") ++ n) = true := by
    apply List.isPrefixOf_iff_prefix.mpr
    refine ⟨bytes ("heads/") ++ n, ?_⟩
    rw [hsplit, List.append_assoc]
  rw [normRef, if_pos hpre]

/-- Reading back the ref just written. -/
theorem lookupRef_setRef_self (r : Refs) (k v : Str) :
    lookupRef (setRef r k v) k = some v := by
  induction r with
  | nil => simp [setRef, lookupRef, List.find?]
  | cons e rest ih =>
    by_cases h : e.1 = k
    · simp only [setRef, if_pos h, lookupRef]
      rw [List.find?_cons_of_pos _ (by simp)]
      rfl
    · simp only [setRef, if_neg h, lookupRef]
      rw [List.find?_cons_of_neg _ (by simp [h])]
      exact ih

/-- Writing a ref leaves every other ref unchanged. -/
theorem lookupRef_setRef_ne (r : Refs) (k' k v : Str) (hne : k' ≠ k) :
    lookupRef (setRef r k' v) k = lookupRef r k := by
  induction r with
  | nil =>
    simp only [setRef, lookupRef]
    rw [List.find?_cons_of_neg _ (by simp [hne])]
  | cons e rest ih =>
    by_cases he : e.1 = k'
    · simp only [setRef, if_pos he, lookupRef]
      rw [List.find?_cons_of_neg _ (by simp [hne]),
        List.find?_cons_of_neg _ (by simp [he, hne])]
    · simp only [setRef, if_neg he, lookupRef]
      by_cases hek : e.1 = k
      · rw [List.find?_cons_of_pos _ (by simp [hek]), List.find?_cons_of_pos _ (by simp [hek])]
      · rw [List.find?_cons_of_neg _ (by simp [hek]), List.find?_cons_of_neg _ (by simp [hek])]
        simpa [lookupRef] using ih

/-- Rewriting a ref with the value it already holds is a no-op on the file
tree. -/
theorem setRef_id (r : Refs) (k v : Str) (h : lookupRef r k = some v) :
    setRef r k v = r := by
  induction r with
  | nil =>
    simp only [lookupRef, List.find?] at h
    cases h
  | cons e rest ih =>
    by_cases he : e.1 = k
    · have hv : e.2 = v := by
        simp only [lookupRef] at h
        rw [List.find?_cons_of_pos _ (by simp [he])] at h
        simpa using h
      simp only [setRef, if_pos he]
      rw [← he, ← hv]
    · simp only [setRef, if_neg he]
      have h' : lookupRef rest k = some v := by
        simp only [lookupRef] at h ⊢
        rw [List.find?_cons_of_neg _ (by simp [he])] at h
        exact h
      rw [ih h']

/-- Cons inversion of the branch loop. -/
theorem updateBranchRefs_cons_inv (maps : List NostrCommitMapping) (name : Str)
    (tip : List Nat) (rest : List (Str × List Nat)) (refs refs' : Refs)
    (h : updateBranchRefs maps ((name, tip) :: rest) refs = .ok refs') :
    (maps.find? (fun m => m.gitHash == hashHex tip) = none
        ∧ updateBranchRefs maps rest refs = .ok refs')
      ∨ (∃ m, maps.find? (fun m => m.gitHash == hashHex tip) = some m
          ∧ ¬ m.mgitHash.length < 7
          ∧ updateBranchRefs maps rest
              (UpdateRef refs (bytes ("refs/heads/") ++ name) m.mgitHash) = .ok refs') := by
  rw [updateBranchRefs] at h
  cases hf : maps.find? (fun m => m.gitHash == hashHex tip) with
  | none =>
    simp only [hf] at h
    exact Or.inl ⟨rfl, h⟩
  | some m =>
    simp only [hf] at h
    by_cases h7 : m.mgitHash.length < 7
    · rw [if_pos h7] at h
      cases h
    · rw [if_neg h7] at h
      exact Or.inr ⟨m, rfl, h7, h⟩

/-- A branch pass does not touch refs outside its own branch names. -/
theorem updateBranchRefs_preserve (maps : List NostrCommitMapping)
    (branches : List (Str × List Nat)) (refs' : Refs) (k : Str) :
    ∀ refs, (∀ b ∈ branches, rKey b ≠ k) →
      updateBranchRefs maps branches refs = .ok refs' →
      lookupRef refs' k = lookupRef refs k := by
  induction branches with
  | nil =>
    intro refs hk h
    rw [updateBranchRefs] at h
    cases h
    rfl
  | cons b rest ih =>
    intro refs hk h
    obtain ⟨name, tip⟩ := b
    rcases updateBranchRefs_cons_inv maps name tip rest refs refs' h with
      ⟨hf, hrest⟩ | ⟨m, hf, h7, hrest⟩
    · exact ih refs (fun b hb => hk b (by simp [hb])) hrest
    · have hstep := ih _ (fun b hb => hk b (by simp [hb])) hrest
      rw [hstep, UpdateRef, normRef_heads]
      exact lookupRef_setRef_ne refs _ k m.mgitHash (hk (name, tip) (by simp))

/-- After a branch pass with distinct branch names, every mapped branch ref
holds its mapped overlay hash. -/
theorem updateBranchRefs_establishes (maps : List NostrCommitMapping)
    (branches : List (Str × List Nat)) (refs' : Refs) :
    ∀ refs, (branches.map (fun b => b.1)).Nodup →
      updateBranchRefs maps branches refs = .ok refs' →
      ∀ b ∈ branches, ∀ m, maps.find? (fun r => r.gitHash == hashHex b.2) = some m →
        lookupRef refs' (rKey b) = some m.mgitHash := by
  induction branches with
  | nil =>
    intro refs hnd h b hb
    cases hb
  | cons b0 rest ih =>
    intro refs hnd h b hb m hf
    obtain ⟨name, tip⟩ := b0
    rw [List.map_cons, List.nodup_cons] at hnd
    rcases List.mem_cons.mp hb with hb' | hb'
    · subst hb'
      rcases updateBranchRefs_cons_inv maps name tip rest refs refs' h with
        ⟨hf0, hrest⟩ | ⟨m0, hf0, h7, hrest⟩
      · rw [hf0] at hf
        cases hf
      · rw [hf0] at hf
        cases hf
        have hkne : ∀ b ∈ rest, rKey b ≠ rKey (name, tip) := by
          intro b hbr hkeq
          apply hnd.1
          have hname : b.1 = name := List.append_cancel_left hkeq
          rw [← hname]
          exact List.mem_map.mpr ⟨b, hbr, rfl⟩
        have hpres := updateBranchRefs_preserve maps rest refs' (rKey (name, tip)) _
          hkne hrest
        rw [hpres, rKey, UpdateRef, normRef_heads]
        exact lookupRef_setRef_self refs _ _
    · rcases updateBranchRefs_cons_inv maps name tip rest refs refs' h with
        ⟨hf0, hrest⟩ | ⟨m0, hf0, h7, hrest⟩
      · exact ih refs hnd.2 hrest b hb' m hf
      · exact ih _ hnd.2 hrest b hb' m hf

/-- A branch pass whose every mapped ref already holds its mapped value is
the identity on the ref tree. -/
theorem updateBranchRefs_id (maps : List NostrCommitMapping)
    (branches : List (Str × List Nat)) (refs : Refs) (hwf : WFMaps maps)
    (hall : ∀ b ∈ branches, ∀ m, maps.find? (fun r => r.gitHash == hashHex b.2) = some m →
      lookupRef refs (rKey b) = some m.mgitHash) :
    updateBranchRefs maps branches refs = .ok refs := by
  induction branches with
  | nil => rfl
  | cons b0 rest ih =>
    obtain ⟨name, tip⟩ := b0
    cases hf : maps.find? (fun m => m.gitHash == hashHex tip) with
    | none =>
      simp only [updateBranchRefs, hf]
      exact ih (fun b hb => hall b (by simp [hb]))
    | some m =>
      have h7 : ¬ m.mgitHash.length < 7 := by
        have := hwf m (List.mem_of_find?_eq_some hf)
        omega
      simp only [updateBranchRefs, hf]
      rw [if_neg h7]
      have hlk : lookupRef refs (rKey (name, tip)) = some m.mgitHash :=
        hall (name, tip) (by simp) m hf
      have hupd : UpdateRef refs (bytes ("refs/heads/") ++ name) m.mgitHash = refs := by
        rw [UpdateRef, normRef_heads]
        exact setRef_id refs _ _ hlk
      rw [hupd]
      exact ih (fun b hb => hall b (by simp [hb]))

/-- Re-running the branch pass over its own result is the identity. -/
theorem updateBranchRefs_idem (maps : List NostrCommitMapping)
    (branches : List (Str × List Nat)) (refs refs1 : Refs) (hwf : WFMaps maps)
    (hnd : (branches.map (fun b => b.1)).Nodup)
    (h : updateBranchRefs maps branches refs = .ok refs1) :
    updateBranchRefs maps branches refs1 = .ok refs1 :=
  updateBranchRefs_id maps branches refs1 hwf
    (updateBranchRefs_establishes maps branches refs1 refs hnd h)

/-! ### C5: head phase and assembly -/

/-- A successful HEAD phase passes objects and refs through unchanged,
always leaves a present HEAD file, and writes a head content that depends
only on the repository and the mapping table. -/
theorem writeReconHead_shape (repo : GitRepo) (maps : List NostrCommitMapping)
    (s : MGitState) (s' : MGitState) (h : writeReconHead repo maps s = .ok s') :
    s'.objects = s.objects ∧ s'.refs = s.refs
      ∧ (∃ hv, s'.head = some hv)
      ∧ ∀ t : MGitState, writeReconHead repo maps t = .ok ⟨t.objects, t.refs, s'.head⟩ := by
  cases hh : repo.head with
  | branch name =>
    simp only [writeReconHead, hh] at h
    cases h
    refine ⟨rfl, rfl, ⟨_, rfl⟩, fun t => ?_⟩
    simp only [writeReconHead, hh]
  | detached g =>
    simp only [writeReconHead, hh] at h
    cases hf : maps.find? (fun m => m.gitHash == hashHex g) with
    | none =>
      simp only [hf] at h
      cases h
    | some m =>
      simp only [hf] at h
      by_cases h0 : m.mgitHash.length = 0
      · rw [if_pos h0] at h
        cases h
      · rw [if_neg h0] at h
        by_cases h7 : m.mgitHash.length < 7
        · rw [if_pos h7] at h
          cases h
        · rw [if_neg h7] at h
          cases h
          refine ⟨rfl, rfl, ⟨_, rfl⟩, fun t => ?_⟩
          simp only [writeReconHead, hh, hf]
          rw [if_neg h0, if_neg h7]

/-- Phase inversion of a successful reconstruction. -/
theorem reconstruct_ok_inv (s0 : MGitState) (repo : GitRepo)
    (maps : List NostrCommitMapping) (s1 : MGitState)
    (h : reconstructMGitObjects s0 repo maps = .ok s1) :
    ∃ o1 r1, processMappings repo maps (initLayout s0).objects maps = .ok o1
      ∧ updateBranchRefs maps repo.branches (initLayout s0).refs = .ok r1
      ∧ writeReconHead repo maps ⟨o1, r1, (initLayout s0).head⟩ = .ok s1 := by
  rw [reconstructMGitObjects] at h
  cases hp : processMappings repo maps (initLayout s0).objects maps with
  | error e =>
    rw [hp] at h
    cases h
  | ok o1 =>
    simp only [hp] at h
    cases hb : updateBranchRefs maps repo.branches (initLayout s0).refs with
    | error e =>
      rw [hb] at h
      cases h
    | ok r1 =>
      simp only [hb] at h
      exact ⟨o1, r1, rfl, rfl, h⟩

/-- `Initialize` is the identity when a HEAD file already exists. -/
theorem initLayout_some (s : MGitState) (h : Str) (hh : s.head = some h) :
    initLayout s = s := by
  obtain ⟨o, r, hd⟩ := s
  simp only at hh
  subst hh
  rfl

/-- C5 (confirmed): over a well-formed mapping table (full-width overlay
hashes) and distinct underlying branch names, running reconstruction a
second time against the same repository and table leaves the Object Store,
every branch reference, and HEAD exactly as the first run left them: every
already-present overlay object is skipped, and refs and HEAD are rewritten
with identical values. -/
theorem c5_reconstruct_idempotent (s0 : MGitState) (repo : GitRepo)
    (maps : List NostrCommitMapping) (s1 : MGitState) (hwf : WFMaps maps)
    (hnd : (repo.branches.map (fun b => b.1)).Nodup)
    (h : reconstructMGitObjects s0 repo maps = .ok s1) :
    reconstructMGitObjects s1 repo maps = .ok s1 := by
  obtain ⟨o1, r1, hp, hb, hw⟩ := reconstruct_ok_inv s0 repo maps s1 h
  obtain ⟨ho, hr, ⟨hv, hhv⟩, hall⟩ := writeReconHead_shape repo maps ⟨o1, r1,
    (initLayout s0).head⟩ s1 hw
  have hinit : initLayout s1 = s1 := initLayout_some s1 hv hhv
  rw [reconstructMGitObjects, hinit]
  have hp2 : processMappings repo maps s1.objects maps = .ok s1.objects := by
    rw [ho]
    exact processMappings_idem repo maps (initLayout s0).objects o1 hwf hp
  have hb2 : updateBranchRefs maps repo.branches s1.refs = .ok s1.refs := by
    rw [hr]
    exact updateBranchRefs_idem maps repo.branches (initLayout s0).refs r1 hwf hnd hb
  simp only [hp2, hb2]
  exact hall s1

/-- Underlying git hash for the C5 witness (0x33 repeated). -/
def c5G : List Nat := List.replicate 20 51

/-- Overlay hash for the C5 witness. -/
def c5MH : Str := bytes ("3333333333333333333333333333333333333333")

/-- Mapping table for the C5 witness. -/
def c5Maps : List NostrCommitMapping := [⟨hashHex c5G, c5MH, bytes ("k")⟩]

/-- Underlying commit for the C5 witness. -/
def c5Git : GitCommit :=
  { treeHash := List.replicate 20 3, parentHashes := [],
    author := ⟨bytes ("a"), bytes ("b"), 0⟩, committer := ⟨bytes ("a"), bytes ("b"), 0⟩,
    message := bytes ("m") }

/-- Underlying repository for the C5 witness: one commit on branch `main`. -/
def c5Repo : GitRepo :=
  { commits := [(c5G, c5Git)], branches := [(bytes ("main"), c5G)],
    head := .branch (bytes ("main")) }

/-- The state reconstruction produces from the empty state in the C5
scenario. -/
def c5S1 : MGitState :=
  { objects := [((c5MH.take 2, c5MH.drop 2),
      reconRecord c5Maps ⟨hashHex c5G, c5MH, bytes ("k")⟩ c5Git)],
    refs := [(bytes ("refs/heads/main"), c5MH)],
    head := some (bytes ("ref: refs/heads/main")) }

/-- C5 witness: a concrete second reconstruction run fixes the state the
first run produced. -/
theorem c5_reconstruct_idempotent_witness :
    reconstructMGitObjects c5S1 c5Repo c5Maps = .ok c5S1 :=
  c5_reconstruct_idempotent ⟨[], [], none⟩ c5Repo c5Maps c5S1 (by decide) (by decide)
    (by decide)
